import Mathlib

/-!
Verification of the NHITS forecasting core (`nbs/models.nhits.ipynb`).

Shallow embedding over exact rationals of:
* `_IdentityBasis.forward` (knot split, 1-D nearest/linear upsampling, the
  chunked bicubic accumulation loop, and the final axis permutation);
* the construction-time checks of `NHITSBlock.__init__`, `_IdentityBasis.__init__`
  and `NHITS.create_stack`;
* `NHITS.forward` (time reversal, the doubly-residual block loop with
  broadcast accumulation of the forecast, the domain-map application, and the
  decomposition output with `torch.stack` / `permute` / `squeeze(-1)`).

Tensors are modelled per batch element: every operation of the source acts
independently along the batch axis, so a sample-level model is faithful.
A 1-D signal is a `List ℚ`; a (horizon × feature) tensor is a `Mat`.
Learned blocks are abstracted as functions from the residual input to a
(backcast, forecast) pair, exactly the interface `NHITS.forward` relies on.
-/

namespace NHITSSpec

/-- A (rows × cols) tensor slice, row major: rows index the horizon axis,
columns the feature axis. -/
abbrev Mat := List (List ℚ)

/-- Entry read with out-of-range default 0. -/
def entry (m : Mat) (i j : ℕ) : ℚ := (m.getD i []).getD j 0

/-- Rectangularity: `m` has exactly `h` rows, each of length `q`. -/
def isRect (h q : ℕ) (m : Mat) : Prop :=
  m.length = h ∧ ∀ r ∈ m, r.length = q

instance (h q : ℕ) (m : Mat) : Decidable (isRect h q m) := by
  unfold isRect; infer_instance

/-- Column count of the leading row (PyTorch tensors are rectangular;
this is the size of dim 1). -/
def matCols (m : Mat) : ℕ := (m.headD []).length

/-- Broadcast index: a dimension of extent 1 is always read at 0
(PyTorch broadcasting). -/
def bIdx (n i : ℕ) : ℕ := if n = 1 then 0 else i

/-- Row selected by a broadcast-aware read. -/
def bGetRow (m : Mat) (i : ℕ) : List ℚ := m.getD (bIdx m.length i) []

/-- Broadcast-aware entry read. -/
def bGet (m : Mat) (i j : ℕ) : ℚ :=
  (bGetRow m i).getD (bIdx (bGetRow m i).length j) 0

/-- PyTorch broadcast addition of two 2-D tensors with compatible shapes
(each dimension equal or of extent 1), as used by
`forecast = forecast + block_forecast` in `NHITS.forward`. -/
def broadcastAdd (a b : Mat) : Mat :=
  (List.range (max a.length b.length)).map (fun i =>
    (List.range (max (matCols a) (matCols b))).map (fun j => bGet a i j + bGet b i j))

/-- `insample_y[:, -1:]`: the last observed lookback value of one sample. -/
def lastVal (y : List ℚ) : ℚ := y.getD (y.length - 1) 0

/-! ### Interpolation (`F.interpolate`, modes `nearest` and `linear`)

Exact-rational transcription of PyTorch's `upsample_nearest1d` and
`upsample_linear1d` (`align_corners=False`) index arithmetic. -/

inductive InterpMode where
  | nearest : InterpMode
  | linear : InterpMode
deriving DecidableEq, Repr

/-- Nearest source index: `min(floor(t * in/out), in - 1)`. -/
def nearestSrcIdx (inSize outSize t : ℕ) : ℕ :=
  min ((t * inSize) / outSize) (inSize - 1)

/-- Linear source coordinate for `align_corners=False`:
`max 0 ((t + 1/2) * (in/out) - 1/2)`. -/
def linearSrcIdx (inSize outSize t : ℕ) : ℚ :=
  max 0 (((t : ℚ) + 1/2) * ((inSize : ℚ) / (outSize : ℚ)) - 1/2)

/-- 1-D upsampling of one channel to `outSize` points. -/
def interpolate1d (mode : InterpMode) (v : List ℚ) (outSize : ℕ) : List ℚ :=
  match mode with
  | .nearest =>
      (List.range outSize).map (fun t => v.getD (nearestSrcIdx v.length outSize t) 0)
  | .linear =>
      (List.range outSize).map (fun t =>
        let s := linearSrcIdx v.length outSize t
        let x0 := (⌊s⌋).toNat
        let x1 := min (x0 + 1) (v.length - 1)
        let lam := s - (x0 : ℚ)
        (1 - lam) * v.getD x0 0 + lam * v.getD x1 0)

/-! ### `_IdentityBasis.forward`, nearest/linear branch (one sample)

`backcast = theta[:, :backcast_size]`; the remainder is reshaped to
`(out_features, n_knots)`, each channel is upsampled to `forecast_size`,
and the output axes are reordered `[B,Q,H] -> [B,H,Q]`. -/

def idBasisForward (backcastSize forecastSize : ℕ) (mode : InterpMode)
    (outFeatures : ℕ) (theta : List ℚ) : List ℚ × Mat :=
  let backcast := theta.take backcastSize
  let knotsFlat := theta.drop backcastSize
  let nKnots := knotsFlat.length / outFeatures
  let knots : Mat := (List.range outFeatures).map
    (fun qi => (knotsFlat.drop (qi * nKnots)).take nKnots)
  let interped : Mat := knots.map (fun v => interpolate1d mode v forecastSize)
  let forecast : Mat :=
    (List.range forecastSize).map (fun t => interped.map (fun row => row.getD t 0))
  (backcast, forecast)

/-! ### The chunked bicubic accumulation loop of `_IdentityBasis.forward`

The cubic branch zero-initialises a forecast buffer, then processes the
knots in sub-batches of size `batch_size = len(backcast)` (i.e. the whole
batch), adding each chunk's interpolation into the matching buffer slice.
The per-chunk bicubic computation is kept as a parameter `interp`. -/

/-- `buf[off : off + len(rows)] += rows` (elementwise in-place add). -/
def sliceAdd (buf : List (List ℚ)) (off : ℕ) (rows : List (List ℚ)) : List (List ℚ) :=
  buf.take off ++
    List.zipWith (fun a b => List.zipWith (· + ·) a b) ((buf.drop off).take rows.length) rows ++
    buf.drop (off + rows.length)

/-- The cubic-branch loop: `n_batches = ceil(n / batch_size)` with
`batch_size = n`, accumulating into a zero buffer of `fs`-long rows. -/
def cubicChunked (fs : ℕ) (interp : List (List ℚ) → List (List ℚ))
    (knots : List (List ℚ)) : List (List ℚ) :=
  let bs := knots.length
  let nBatches := (knots.length + bs - 1) / bs
  (List.range nBatches).foldl
    (fun buf i => sliceAdd buf (i * bs) (interp ((knots.drop (i * bs)).take bs)))
    (List.replicate knots.length (List.replicate fs 0))

/-! ### `NHITS.forward` (one batch element)

A learned block is abstracted as a function from the residual input to a
(backcast, forecast) pair — the exact interface `NHITS.forward` uses
(the exogenous inputs are constant across the loop and baked in). -/

abbrev Blk := List ℚ → List ℚ × Mat

/-- `residuals = (residuals - backcast) * insample_mask` (elementwise). -/
def residUpdate (mask r bc : List ℚ) : List ℚ :=
  List.zipWith (· * ·) (List.zipWith (· - ·) r bc) mask

/-- The block loop of `NHITS.forward`: state is
(residuals, forecast accumulator, collected block forecasts). -/
def runLoop (mask : List ℚ) : List Blk → List ℚ × Mat × List Mat → List ℚ × Mat × List Mat
  | [], st => st
  | blk :: rest, st =>
      runLoop mask rest
        (residUpdate mask st.1 (blk st.1).1,
         broadcastAdd st.2.1 (blk st.1).2,
         st.2.2 ++ [(blk st.1).2])

/-- Non-decomposition path of `NHITS.forward`: time-reverse `insample_y` and
`insample_mask`, seed the forecast with `insample_y[:, -1:, None]`
(a 1 × 1 slice per sample), run all blocks, then apply
`self.loss.domain_map`. -/
def nhitsForwardPoint (dm : Mat → Mat) (blocks : List Blk) (y mask : List ℚ) : Mat :=
  let st := runLoop mask.reverse blocks (y.reverse, [[lastVal y]], [])
  dm st.2.1

/-- Per-block forecasts produced along the run (each block sees the
residual left by its predecessors). -/
def blockForecasts (mask : List ℚ) : List Blk → List ℚ → List Mat
  | [], _ => []
  | blk :: rest, r => (blk r).2 :: blockForecasts mask rest (residUpdate mask r (blk r).1)

/-- Shape signature of a stacked slice: (rows, row lengths).
`torch.stack` demands all stacked tensors share it. -/
def matDims (m : Mat) : ℕ × List ℕ := (m.length, m.map List.length)

/-- `torch.stack`: errors (`none`) on an empty list or mismatched shapes. -/
def torchStack (ms : List Mat) : Option (List Mat) :=
  match ms with
  | [] => none
  | m :: rest => if rest.all (fun x => decide (matDims x = matDims m)) then some (m :: rest) else none

/-- Decomposition output after `squeeze(-1)`: the feature axis is dropped
exactly when its extent is 1. -/
inductive DecompOut where
  | full : List Mat → DecompOut
  | squeezed : List (List ℚ) → DecompOut
deriving DecidableEq, Repr

/-- Decomposition path of `NHITS.forward` (one batch element): the
contribution list is seeded with `forecast.repeat(1, self.h, 1)` (the
baseline broadcast to `h` steps, feature extent 1), each block forecast is
appended, and the result is `torch.stack`-ed, permuted so the per-sample
view is the contribution list, and `squeeze(-1)`-ed. The domain map is
never applied to the returned value. -/
def nhitsForwardDecompose (h : ℕ) (blocks : List Blk) (y mask : List ℚ) : Option DecompOut :=
  let st := runLoop mask.reverse blocks (y.reverse, [[lastVal y]], [])
  let contribs := (List.replicate h [lastVal y]) :: st.2.2
  match torchStack contribs with
  | none => none
  | some ms =>
      if ((ms.headD []).headD []).length = 1 then
        some (.squeezed (ms.map (fun m => m.map (fun row => row.getD 0 0))))
      else some (.full ms)

/-! ### Construction: `NHITS.create_stack`, `NHITSBlock.__init__`, `_IdentityBasis.__init__`

Errors mirror the Python exceptions raised during construction. A Python
`IndexError` carries no information about which list was over-indexed. -/

inductive ConsError where
  | indexOutOfRange : ConsError
  | assertionError : String → ConsError
  | notImplementedError : String → ConsError
  | zeroDivisionError : ConsError
deriving DecidableEq, Repr

/-- `lst[i]` with Python semantics: out of range raises `IndexError`. -/
def elemAt {α : Type} (l : List α) (i : ℕ) : Except ConsError α :=
  match l.get? i with
  | some x => Except.ok x
  | none => Except.error .indexOutOfRange

/-- Configuration of `_IdentityBasis` (its stored fields). -/
structure BasisCfg where
  backcastSize : ℕ
  forecastSize : ℕ
  interpolationMode : String
  outFeatures : ℕ
deriving DecidableEq, Repr

/-- The `ACTIVATIONS` whitelist. -/
def ACTIVATIONS : List String :=
  ["ReLU", "Softplus", "Tanh", "SELU", "LeakyReLU", "PReLU", "Sigmoid"]

/-- The `POOLING` whitelist. -/
def POOLING : List String := ["MaxPool1d", "AvgPool1d"]

/-- Bool test for `'cubic' in interpolation_mode` (substring containment). -/
def hasCubic (s : String) : Bool := decide (1 < (s.splitOn "cubic").length)

/-- `_IdentityBasis.__init__`: a bare assert (empty message) admits
`linear`, `nearest`, or any mode containing `cubic`. -/
def mkIdentityBasis (backcastSize forecastSize : ℕ) (mode : String)
    (outFeatures : ℕ) : Except ConsError BasisCfg :=
  if mode = "linear" ∨ mode = "nearest" ∨ hasCubic mode then
    Except.ok { backcastSize := backcastSize, forecastSize := forecastSize,
                interpolationMode := mode, outFeatures := outFeatures }
  else Except.error (.assertionError "")

/-- Model-level configuration: the `NHITS.__init__` arguments consumed by
`create_stack`, plus the collaborator-supplied sizes
(`outputsizeMultiplier` comes from `self.loss`, the exogenous channel
counts from the configured column lists). In this source `mlp_units` is a
single list of (in, out) layer widths shared by every block, not indexed
per stack. -/
structure NHITSConfig where
  h : ℕ
  inputSize : ℕ
  stackTypes : List String
  nBlocks : List ℕ
  mlpUnits : List (ℕ × ℕ)
  nPoolKernelSize : List ℕ
  nFreqDownsample : List ℕ
  poolingMode : String
  interpolationMode : String
  dropoutProbTheta : ℚ
  activation : String
  outputsizeMultiplier : ℕ
  futrInputSize : ℕ
  histInputSize : ℕ
  statInputSize : ℕ
deriving DecidableEq, Repr

/-- The fields an `NHITSBlock` stores at construction. -/
structure BlockCfg where
  inputSize : ℕ
  h : ℕ
  nTheta : ℕ
  mlpInputSize : ℕ
  mlpUnits : List (ℕ × ℕ)
  nPoolKernelSize : ℕ
  poolingMode : String
  dropoutProb : ℚ
  activation : String
  futrInputSize : ℕ
  histInputSize : ℕ
  statInputSize : ℕ
  basis : BasisCfg
deriving DecidableEq, Repr

/-- `NHITSBlock.__init__`, in source order: pooled sizes
(`int(np.ceil(L/k))`, division by zero for `k = 0`), the MLP input width,
the activation and pooling asserts, `mlp_units[0][0]` (IndexError on an
empty list), and the dropout `NotImplementedError` raised inside the layer
loop. Python's f-string messages print the whitelist; here only the
offending value is kept. -/
def mkNHITSBlock (cfg : NHITSConfig) (nTheta : ℕ) (basis : BasisCfg)
    (kernel : ℕ) : Except ConsError BlockCfg :=
  if kernel = 0 then Except.error .zeroDivisionError
  else
    let pooledHistSize := (cfg.inputSize + kernel - 1) / kernel
    let pooledFutrSize := (cfg.inputSize + cfg.h + kernel - 1) / kernel
    let mlpInputSize := pooledHistSize + cfg.histInputSize * pooledHistSize +
      cfg.futrInputSize * pooledFutrSize + cfg.statInputSize
    if cfg.activation ∈ ACTIVATIONS then
      if cfg.poolingMode ∈ POOLING then
        match cfg.mlpUnits with
        | [] => Except.error .indexOutOfRange
        | _ :: _ =>
          if 0 < cfg.dropoutProbTheta then Except.error (.notImplementedError "dropout")
          else Except.ok
            { inputSize := cfg.inputSize, h := cfg.h, nTheta := nTheta,
              mlpInputSize := mlpInputSize, mlpUnits := cfg.mlpUnits,
              nPoolKernelSize := kernel, poolingMode := cfg.poolingMode,
              dropoutProb := cfg.dropoutProbTheta, activation := cfg.activation,
              futrInputSize := cfg.futrInputSize, histInputSize := cfg.histInputSize,
              statInputSize := cfg.statInputSize, basis := basis }
      else Except.error (.assertionError (cfg.poolingMode ++ " is not in POOLING"))
    else Except.error (.assertionError (cfg.activation ++ " is not in ACTIVATIONS"))

/-- Exception sequencing (Python control flow: an exception aborts the
surrounding construction immediately). -/
def exbind {α β : Type} (e : Except ConsError α) (f : α → Except ConsError β) :
    Except ConsError β :=
  match e with
  | .error err => .error err
  | .ok x => f x

/-- Body of the inner `for block_id in range(n_blocks[i])` loop of
`create_stack` for stack `i`: with `n_blocks[i] = 0` the body never runs
(no checks at all); otherwise the checks run per iteration — in source
order: the stack-type assert (its message names the type, not `i`),
`n_freq_downsample[i]`, `h // d`, the basis construction,
`n_pool_kernel_size[i]`, and `NHITSBlock(...)` — and the resulting
identical blocks are collected. -/
def stackBlocks (cfg : NHITSConfig) (i nb : ℕ) : Except ConsError (List BlockCfg) :=
  if nb = 0 then Except.ok []
  else if cfg.stackTypes.getD i "" = "identity" then
    exbind (elemAt cfg.nFreqDownsample i) (fun d =>
      if d = 0 then Except.error .zeroDivisionError
      else
        exbind (mkIdentityBasis cfg.inputSize cfg.h cfg.interpolationMode
            cfg.outputsizeMultiplier) (fun basis =>
          exbind (elemAt cfg.nPoolKernelSize i) (fun kernel =>
            exbind (mkNHITSBlock cfg
                (cfg.inputSize + cfg.outputsizeMultiplier * max (cfg.h / d) 1) basis kernel)
              (fun blk => Except.ok (List.replicate nb blk)))))
  else Except.error (.assertionError ("Block type " ++ cfg.stackTypes.getD i "" ++ " not found!"))

/-- The outer `for i in range(len(stack_types))` loop of `create_stack`
over an explicit index list: `n_blocks[i]` is read at loop entry for
stack `i`, and the stack's blocks are appended to the flat block list. -/
def createStackGo (cfg : NHITSConfig) : List ℕ → Except ConsError (List BlockCfg)
  | [] => Except.ok []
  | i :: rest =>
      exbind (elemAt cfg.nBlocks i) (fun nb =>
        exbind (stackBlocks cfg i nb) (fun bl =>
          exbind (createStackGo cfg rest) (fun restBlocks =>
            Except.ok (bl ++ restBlocks))))

/-- `NHITS.create_stack`. -/
def createStack (cfg : NHITSConfig) : Except ConsError (List BlockCfg) :=
  createStackGo cfg (List.range cfg.stackTypes.length)

/-- The same configuration with every per-stack list cut down to the
first `len(stack_types)` entries. -/
def truncateCfg (cfg : NHITSConfig) : NHITSConfig :=
  { cfg with
      nBlocks := cfg.nBlocks.take cfg.stackTypes.length
      nPoolKernelSize := cfg.nPoolKernelSize.take cfg.stackTypes.length
      nFreqDownsample := cfg.nFreqDownsample.take cfg.stackTypes.length }

/-! ### Concrete instances used by counterexamples and witnesses -/

/-- A small valid configuration: `L = 4`, `H = 2`, one identity stack of
one block, point loss (`outputsize_multiplier = 1`), no exogenous data. -/
def cfgBase : NHITSConfig :=
  { h := 2, inputSize := 4, stackTypes := ["identity"], nBlocks := [1],
    mlpUnits := [(8, 8)], nPoolKernelSize := [2], nFreqDownsample := [1],
    poolingMode := "MaxPool1d", interpolationMode := "linear",
    dropoutProbTheta := 0, activation := "ReLU", outputsizeMultiplier := 1,
    futrInputSize := 0, histInputSize := 0, statInputSize := 0 }

/-- `cfgBase` with per-stack lists of unequal lengths: one stack type but
two pooling kernel sizes and three frequency-downsample ratios. -/
def cfgMis : NHITSConfig :=
  { cfgBase with nPoolKernelSize := [2, 2], nFreqDownsample := [1, 2, 3] }

/-- Two stacks but only one pooling kernel size. -/
def cfgShort : NHITSConfig :=
  { cfgBase with
      stackTypes := ["identity", "identity"]
      nBlocks := [1, 1]
      nPoolKernelSize := [2]
      nFreqDownsample := [1, 1] }

/-- Unsupported stack type at index 0. -/
def cfgA : NHITSConfig :=
  { cfgBase with
      stackTypes := ["trend", "identity"]
      nBlocks := [1, 1]
      nPoolKernelSize := [2, 2]
      nFreqDownsample := [1, 1] }

/-- Unsupported stack type at index 1. -/
def cfgB : NHITSConfig :=
  { cfgBase with
      stackTypes := ["identity", "trend"]
      nBlocks := [1, 1]
      nPoolKernelSize := [2, 2]
      nFreqDownsample := [1, 1] }

/-- Unsupported stack type at index 0, but with zero blocks there. -/
def cfgZeroSkip : NHITSConfig :=
  { cfgBase with
      stackTypes := ["trend", "identity"]
      nBlocks := [0, 1]
      nPoolKernelSize := [2, 2]
      nFreqDownsample := [1, 1] }

/-- The block list `create_stack` produces for `cfgBase`. -/
def cfgBaseBlocks : List BlockCfg :=
  match createStack cfgBase with
  | .ok bs => bs
  | .error _ => []

/-- The block list `create_stack` produces for `cfgMis`. -/
def cfgMisBlocks : List BlockCfg :=
  match createStack cfgMis with
  | .ok bs => bs
  | .error _ => []

/-- The block list `create_stack` produces for `cfgZeroSkip`. -/
def cfgZeroSkipBlocks : List BlockCfg :=
  match createStack cfgZeroSkip with
  | .ok bs => bs
  | .error _ => []

/-- A junk block record, only used as a `headD` default. -/
def blkJunk : BlockCfg :=
  { inputSize := 0, h := 0, nTheta := 0, mlpInputSize := 0, mlpUnits := [],
    nPoolKernelSize := 0, poolingMode := "", dropoutProb := 0, activation := "",
    futrInputSize := 0, histInputSize := 0, statInputSize := 0,
    basis := { backcastSize := 0, forecastSize := 0, interpolationMode := "", outFeatures := 0 } }

/-- A concrete learned block for `L = 4`, `H = 2`, `Q = 1`. -/
def c1Blk : Blk := fun _ => ([0, 0, 0, 0], [[1], [2]])

/-- A concrete learned block for `L = 4`, `H = 2`, `Q = 2` (two output
features per horizon step, e.g. a two-parameter loss). -/
def c3Blk : Blk := fun _ => ([0, 0, 0, 0], [[1, 2], [3, 4]])

/-- A concrete learned block emitting a length-4 backcast. -/
def c2Blk : Blk := fun _ => ([5, 6, 7, 8], [[1], [1]])

/-- A concrete stand-in for the per-chunk bicubic interpolation. -/
def c4Interp : List (List ℚ) → List (List ℚ) := fun rs => rs.map (fun r => [r.getD 0 0, 3])

/-- Concrete knots batch for the chunking witness. -/
def c4Knots : List (List ℚ) := [[5], [7]]

/-! ## Theorems -/

/-- C3: at `out_features = 2` (a two-parameter loss) with one block, the
decomposition path of `NHITS.forward` fails at `torch.stack`: the seeded
baseline `forecast.repeat(1, h, 1)` has feature extent 1 while the block
forecast has extent 2, contradicting the code's own shape comment
`(n_batch, n_blocks, h, output_size)`. -/
theorem c3_decompose_stack_mismatch :
    nhitsForwardDecompose 2 [c3Blk] [1, 2, 3, 4] [1, 1, 1, 1] = none := by
  decide

/-- C5 counterexample: `create_stack` silently succeeds on per-stack
configuration lists of unequal lengths (1 stack type, 2 pooling kernel
sizes, 3 frequency-downsample ratios), producing one block and raising no
error at all. -/
theorem c5_counterexample :
    createStack cfgMis = Except.ok cfgMisBlocks ∧ cfgMisBlocks.length = 1 ∧
    cfgMis.stackTypes.length = 1 ∧ cfgMis.nPoolKernelSize.length = 2 ∧
    cfgMis.nFreqDownsample.length = 3 :=
  ⟨rfl, rfl, rfl, rfl, rfl⟩

/-- C6 counterexample: two configurations whose offending stack sits at
index 0 (`cfgA`) respectively index 1 (`cfgB`) make `create_stack` fail
with the *identical* assertion error — the message names the stack type
(`Block type trend not found!`), so it cannot identify the offending
stack's index. -/
theorem c6_counterexample :
    createStack cfgA = Except.error (ConsError.assertionError "Block type trend not found!") ∧
    createStack cfgB = Except.error (ConsError.assertionError "Block type trend not found!") ∧
    cfgA.stackTypes.getD 0 "" = "trend" ∧ cfgB.stackTypes.getD 0 "" = "identity" ∧
    cfgB.stackTypes.getD 1 "" = "trend" :=
  ⟨rfl, rfl, rfl, rfl, rfl⟩

/-- Reading a `range`-`map` list at an in-range index. -/
theorem getD_map_range {α : Type} (f : ℕ → α) (n i : ℕ) (d : α) (h : i < n) :
    ((List.range n).map f).getD i d = f i := by
  rw [List.getD_eq_getElem _ _ (by simpa using h)]
  simp

/-- Mapping an entry read over the index range rebuilds the mapped list. -/
theorem range_getD_eq_map {α β : Type} (v : List α) (d : α) (g : α → β) :
    (List.range v.length).map (fun t => g (v.getD t d)) = v.map g := by
  refine List.ext_getElem (by simp) ?_
  intro i h1 h2
  simp only [List.getElem_map, List.getElem_range]
  rw [List.getD_eq_getElem v d (by simpa using h1)]

/-- Both 1-D upsampling modes are the identity map when the channel
already has the requested output length. -/
theorem interpolate1d_id (mode : InterpMode) (v : List ℚ) (hv : 0 < v.length) :
    interpolate1d mode v v.length = v := by
  cases mode with
  | nearest =>
      refine List.ext_getElem (by simp [interpolate1d]) ?_
      intro i h1 h2
      simp only [interpolate1d, List.getElem_map, List.getElem_range]
      have hidx : nearestSrcIdx v.length v.length i = i := by
        unfold nearestSrcIdx
        rw [Nat.mul_div_cancel i hv]
        omega
      rw [hidx, List.getD_eq_getElem v 0 h2]
  | linear =>
      refine List.ext_getElem (by simp [interpolate1d]) ?_
      intro i h1 h2
      have h2' : i < v.length := h2
      simp only [interpolate1d, List.getElem_map, List.getElem_range]
      have hs : linearSrcIdx v.length v.length i = (i : ℚ) := by
        unfold linearSrcIdx
        rw [div_self (by exact_mod_cast hv.ne'), mul_one, add_sub_cancel_right]
        exact max_eq_right (by positivity)
      simp only [hs, Int.floor_natCast, Int.toNat_natCast, sub_self, sub_zero,
        one_mul, zero_mul, add_zero]
      rw [List.getD_eq_getElem v 0 h2']

/-- C7: with `n_knots = H` (here `out_features = 1`, so
`theta = backcast ++ knots` with `H` knots) the basis acts as the
identity: the backcast is `theta[:L]` and the forecast is the remaining
`H` knot values elementwise, in nearest and in linear mode. -/
theorem c7_basis_identity_when_knots_eq_h (L H : ℕ) (mode : InterpMode) (theta : List ℚ)
    (hH : 0 < H) (hlen : theta.length = L + H) :
    idBasisForward L H mode 1 theta = (theta.take L, (theta.drop L).map (fun x => [x])) := by
  have hdlen : (theta.drop L).length = H := by simp [hlen]
  have hr1 : List.range 1 = [0] := rfl
  unfold idBasisForward
  simp only [Nat.div_one, hr1, List.map_cons, List.map_nil,
    Nat.zero_mul, List.drop_zero, List.take_length]
  refine Prod.ext rfl ?_
  show (List.range H).map
      (fun t => [(interpolate1d mode (theta.drop L) H).getD t 0]) = _
  rw [← hdlen, interpolate1d_id mode (theta.drop L) (by omega)]
  exact range_getD_eq_map (theta.drop L) 0 (fun x => [x])

/-- Linear upsampling of a single-knot channel is the constant channel. -/
theorem interpolate1d_linear_single (k : ℚ) (H : ℕ) :
    interpolate1d .linear [k] H = List.replicate H k := by
  refine List.ext_getElem (by simp [interpolate1d]) ?_
  intro t h1 h2
  have ht : t < H := by simpa [interpolate1d] using h1
  simp only [interpolate1d, List.getElem_map, List.getElem_range, List.getElem_replicate]
  have hub : linearSrcIdx 1 H t < 1 := by
    unfold linearSrcIdx
    have hH0 : 0 < H := by omega
    have hHQ : (0 : ℚ) < (H : ℚ) := by exact_mod_cast hH0
    have htQ : (t : ℚ) + 1 ≤ (H : ℚ) := by exact_mod_cast ht
    have : ((t : ℚ) + 1/2) * ((1 : ℚ) / (H : ℚ)) < 1 := by
      rw [mul_one_div, div_lt_one hHQ]
      push_cast
      linarith
    have h1' : ((t : ℚ) + 1/2) * (((1 : ℕ) : ℚ) / (H : ℚ)) - 1/2 < 1 := by
      push_cast
      linarith
    exact max_lt one_pos h1'
  have hlb : 0 ≤ linearSrcIdx 1 H t := le_max_left 0 _
  have hfl : ⌊linearSrcIdx 1 H t⌋ = 0 := Int.floor_eq_zero_iff.mpr ⟨hlb, hub⟩
  simp only [hfl, Int.toNat_zero, Nat.cast_zero, sub_zero, List.length_cons,
    List.length_nil, Nat.min_self]
  ring_nf
  simp [List.getD]

/-- C8: with a single knot (`n_knots = 1`, frequency-downsample ratio
exceeding `H`) the linear-mode basis forecast is the length-`H` constant
signal equal to that knot value. -/
theorem c8_single_knot_constant (L H : ℕ) (theta : List ℚ)
    (hH : 0 < H) (hlen : theta.length = L + 1) :
    idBasisForward L H .linear 1 theta = (theta.take L, List.replicate H [theta.getD L 0]) := by
  have hdl : theta.drop L = [theta.getD L 0] := by
    refine List.ext_getElem (by simp [hlen]) ?_
    intro i h1 h2
    have hi : i = 0 := by simp [hlen] at h1; omega
    subst hi
    simp only [List.getElem_cons_zero]
    rw [List.getElem_drop]
    rw [List.getD_eq_getElem theta 0 (by omega)]
    simp
  have hr1 : List.range 1 = [0] := rfl
  unfold idBasisForward
  rw [hdl]
  simp only [Nat.div_one, hr1, List.map_cons, List.map_nil,
    Nat.zero_mul, List.drop_zero, List.take_length, List.length_cons, List.length_nil]
  refine Prod.ext rfl ?_
  show (List.range H).map
      (fun t => [(interpolate1d .linear [theta.getD L 0] H).getD t 0]) = _
  rw [interpolate1d_linear_single]
  refine List.ext_getElem (by simp) ?_
  intro t h1 h2
  have ht : t < H := by simpa using h1
  simp only [List.getElem_map, List.getElem_range, List.getElem_replicate]
  rw [List.getD_eq_getElem _ 0 (by simpa using ht), List.getElem_replicate]

/-- Adding a row onto a zero row of matching length is the identity. -/
theorem zipWith_add_zero_row (r : List ℚ) :
    List.zipWith (· + ·) (List.replicate r.length 0) r = r := by
  induction r with
  | nil => rfl
  | cons a t ih =>
      simp only [List.length_cons, List.replicate_succ, List.zipWith_cons_cons, zero_add]
      rw [ih]

/-- Accumulating rows into a matching zero buffer returns the rows. -/
theorem zipWith_add_zero_buf (rows : List (List ℚ)) (fs : ℕ)
    (hrows : ∀ r ∈ rows, r.length = fs) :
    List.zipWith (fun a b => List.zipWith (· + ·) a b)
      (List.replicate rows.length (List.replicate fs 0)) rows = rows := by
  induction rows with
  | nil => rfl
  | cons r t ih =>
      simp only [List.length_cons, List.replicate_succ, List.zipWith_cons_cons]
      have hr : r.length = fs := hrows r (by simp)
      have h1 : List.zipWith (· + ·) (List.replicate fs 0) r = r := by
        rw [← hr]
        exact zipWith_add_zero_row r
      rw [h1, ih (fun x hx => hrows x (by simp [hx]))]

/-- C4: in cubic mode the chunked evaluation — sub-batches sized to the
batch size, accumulated into a zero-initialised forecast buffer — equals
applying the per-chunk interpolation to the whole batch at once, for any
(length-preserving, `fs`-wide) interpolation and any nonempty knots batch. -/
theorem c4_cubic_chunking_equiv (fs : ℕ) (interp : List (List ℚ) → List (List ℚ))
    (knots : List (List ℚ)) (hne : knots ≠ [])
    (hlen : (interp knots).length = knots.length)
    (hrows : ∀ r ∈ interp knots, r.length = fs) :
    cubicChunked fs interp knots = interp knots := by
  simp only [cubicChunked]
  have hn : 0 < knots.length := List.length_pos.mpr hne
  have hb : (knots.length + knots.length - 1) / knots.length = 1 :=
    Nat.div_eq_of_lt_le (by omega) (by omega)
  rw [hb]
  have hr1 : List.range 1 = [0] := rfl
  rw [hr1]
  simp only [List.foldl_cons, List.foldl_nil, Nat.zero_mul, List.drop_zero,
    List.take_length]
  unfold sliceAdd
  simp only [List.take_zero, List.drop_zero, List.nil_append, Nat.zero_add, hlen]
  rw [List.take_replicate, min_self, List.drop_replicate, Nat.sub_self,
    List.replicate_zero, List.append_nil, ← hlen]
  exact zipWith_add_zero_buf (interp knots) fs hrows

/-- Entry of an elementwise `zipWith` at an in-range index. -/
theorem zipWith_getD (f : ℚ → ℚ → ℚ) (d : ℚ) (a : List ℚ) :
    ∀ (b : List ℚ) (i : ℕ), i < a.length → i < b.length →
      (List.zipWith f a b).getD i d = f (a.getD i d) (b.getD i d) := by
  induction a with
  | nil => intro b i h1 _; simp at h1
  | cons x xs ih =>
      intro b i h1 h2
      cases b with
      | nil => simp at h2
      | cons y ys =>
          cases i with
          | zero => rfl
          | succ n =>
              simp only [List.zipWith_cons_cons, List.getD_cons_succ]
              exact ih ys n (by simpa using h1) (by simpa using h2)

/-- A nonempty rectangular tensor's column extent is its row length. -/
theorem matCols_of_rect {h q : ℕ} {m : Mat} (hm : isRect h q m) (hh : 0 < h) :
    matCols m = q := by
  obtain ⟨hlen, hrow⟩ := hm
  cases m with
  | nil => simp at hlen; omega
  | cons r t => exact hrow r (by simp)

/-- On a rectangular tensor, within bounds, broadcast reads are plain reads. -/
theorem bGet_of_rect {h q : ℕ} {m : Mat} (hm : isRect h q m) {t j : ℕ}
    (ht : t < h) (hj : j < q) : bGet m t j = entry m t j := by
  obtain ⟨hlen, hrow⟩ := hm
  have hbi : bIdx m.length t = t := by
    unfold bIdx
    split
    · omega
    · rfl
  have hR : bGetRow m t = m.getD t [] := by unfold bGetRow; rw [hbi]
  have hrl : (m.getD t []).length = q := by
    rw [List.getD_eq_getElem m [] (by omega)]
    exact hrow _ (List.getElem_mem _)
  have hbj : bIdx (m.getD t []).length j = j := by
    unfold bIdx
    split
    · omega
    · rfl
  unfold bGet entry
  rw [hR, hbj]

/-- A broadcast read of a 1 × 1 tensor always yields its sole entry. -/
theorem bGet_singleton (c : ℚ) (t j : ℕ) : bGet [[c]] t j = c := rfl

/-- Broadcast addition of two rectangular `h × q` tensors is elementwise. -/
theorem broadcastAdd_rect {h q : ℕ} (hh : 0 < h) (hq : 0 < q) (a b : Mat)
    (ha : isRect h q a) (hb : isRect h q b) :
    isRect h q (broadcastAdd a b) ∧
      ∀ t j, t < h → j < q →
        entry (broadcastAdd a b) t j = entry a t j + entry b t j := by
  have hca : matCols a = q := matCols_of_rect ha hh
  have hcb : matCols b = q := matCols_of_rect hb hh
  have hla : a.length = h := ha.1
  have hlb : b.length = h := hb.1
  constructor
  · constructor
    · simp [broadcastAdd, hla, hlb]
    · intro r hr
      simp only [broadcastAdd, List.mem_map] at hr
      obtain ⟨i, _, hri⟩ := hr
      rw [← hri]
      simp [hca, hcb]
  · intro t j ht hj
    unfold entry broadcastAdd
    rw [getD_map_range _ _ _ _ (by rw [hla, hlb, Nat.max_self]; exact ht)]
    rw [getD_map_range _ _ _ _ (by rw [hca, hcb, Nat.max_self]; exact hj)]
    rw [bGet_of_rect ha ht hj, bGet_of_rect hb ht hj]
    rfl

/-- Broadcast addition of the 1 × 1 seed onto a rectangular `h × q` tensor
adds the seed value to every entry. -/
theorem broadcastAdd_singleton_rect {h q : ℕ} (hh : 0 < h) (hq : 0 < q)
    (c : ℚ) (m : Mat) (hm : isRect h q m) :
    isRect h q (broadcastAdd [[c]] m) ∧
      ∀ t j, t < h → j < q →
        entry (broadcastAdd [[c]] m) t j = c + entry m t j := by
  have hcm : matCols m = q := matCols_of_rect hm hh
  have hlm : m.length = h := hm.1
  have hl1 : ([[c]] : Mat).length = 1 := rfl
  have hc1 : matCols [[c]] = 1 := rfl
  constructor
  · constructor
    · simp only [broadcastAdd, List.length_map, List.length_range]
      rw [hl1, hlm]
      omega
    · intro r hr
      simp only [broadcastAdd, List.mem_map] at hr
      obtain ⟨i, _, hri⟩ := hr
      rw [← hri]
      simp only [List.length_map, List.length_range]
      rw [hc1, hcm]
      omega
  · intro t j ht hj
    unfold entry broadcastAdd
    rw [getD_map_range _ _ _ _ (by rw [hl1, hlm]; omega)]
    rw [getD_map_range _ _ _ _ (by rw [hc1, hcm]; omega)]
    rw [bGet_singleton, bGet_of_rect hm ht hj]
    rfl

/-- Folding broadcast addition over rectangular `h × q` tensors from a
rectangular seed adds all entries pointwise. -/
theorem foldl_broadcastAdd_rect {h q : ℕ} (hh : 0 < h) (hq : 0 < q) :
    ∀ (ms : List Mat) (A : Mat), isRect h q A → (∀ m ∈ ms, isRect h q m) →
      isRect h q (ms.foldl broadcastAdd A) ∧
        ∀ t j, t < h → j < q →
          entry (ms.foldl broadcastAdd A) t j
            = entry A t j + ((ms.map (fun m => entry m t j)).sum) := by
  intro ms
  induction ms with
  | nil => intro A hA _; exact ⟨hA, by simp⟩
  | cons m rest ih =>
      intro A hA hms
      have hm : isRect h q m := hms m (by simp)
      obtain ⟨hAm, hAmE⟩ := broadcastAdd_rect hh hq A m hA hm
      obtain ⟨hRect, hE⟩ := ih (broadcastAdd A m) hAm (fun x hx => hms x (by simp [hx]))
      refine ⟨by simpa using hRect, ?_⟩
      intro t j ht hj
      simp only [List.foldl_cons, List.map_cons, List.sum_cons]
      rw [hE t j ht hj, hAmE t j ht hj]
      ring

/-- The loop's forecast accumulator is the fold of broadcast addition over
the per-block forecasts, and the collected contribution list is exactly
those forecasts in order. -/
theorem runLoop_forecast_contribs (mask : List ℚ) :
    ∀ (bs : List Blk) (r : List ℚ) (f : Mat) (cs : List Mat),
      (runLoop mask bs (r, f, cs)).2.1 = (blockForecasts mask bs r).foldl broadcastAdd f ∧
      (runLoop mask bs (r, f, cs)).2.2 = cs ++ blockForecasts mask bs r := by
  intro bs
  induction bs with
  | nil => intro r f cs; simp [runLoop, blockForecasts]
  | cons blk rest ih =>
      intro r f cs
      simp only [runLoop, blockForecasts]
      obtain ⟨h1, h2⟩ :=
        ih (residUpdate mask r (blk r).1) (broadcastAdd f (blk r).2) (cs ++ [(blk r).2])
      exact ⟨by simpa using h1, by simpa using h2⟩

/-- Every forecast produced along the run is rectangular when every block
only emits rectangular forecasts. -/
theorem blockForecasts_rect {h q : ℕ} (mask : List ℚ) :
    ∀ (bs : List Blk) (r : List ℚ),
      (∀ blk ∈ bs, ∀ x, isRect h q ((blk x).2)) →
      ∀ m ∈ blockForecasts mask bs r, isRect h q m := by
  intro bs
  induction bs with
  | nil => intro r _ m hm; simp [blockForecasts] at hm
  | cons blk rest ih =>
      intro r hbs m hm
      simp only [blockForecasts, List.mem_cons] at hm
      rcases hm with rfl | hm
      · exact hbs blk (by simp) r
      · exact ih _ (fun b hb x => hbs b (by simp [hb]) x) m hm

/-- C1: on the non-decomposition path the returned forecast is the domain
map of the accumulated tensor, which is rectangular `h × q` and whose
every entry is the last observed lookback value (the naive baseline,
attained at all `h` steps through broadcasting) plus the sum of the
per-block forecasts at that position — exactly, for every batch element
(the statement is per sample and quantifies over all inputs). -/
theorem c1_forecast_equals_baseline_plus_sum
    (dm : Mat → Mat) (h q : ℕ) (blocks : List Blk) (y mask : List ℚ)
    (hy : y ≠ []) (hh : 0 < h) (hq : 0 < q) (hblocks : blocks ≠ [])
    (hfc : ∀ blk ∈ blocks, ∀ r, isRect h q ((blk r).2)) :
    nhitsForwardPoint dm blocks y mask
      = dm ((blockForecasts mask.reverse blocks y.reverse).foldl broadcastAdd [[lastVal y]]) ∧
    isRect h q ((blockForecasts mask.reverse blocks y.reverse).foldl broadcastAdd [[lastVal y]]) ∧
    ∀ t j, t < h → j < q →
      entry ((blockForecasts mask.reverse blocks y.reverse).foldl broadcastAdd [[lastVal y]]) t j
        = lastVal y
          + ((blockForecasts mask.reverse blocks y.reverse).map (fun m => entry m t j)).sum := by
  have h1 : nhitsForwardPoint dm blocks y mask
      = dm ((blockForecasts mask.reverse blocks y.reverse).foldl broadcastAdd [[lastVal y]]) := by
    show dm (runLoop mask.reverse blocks (y.reverse, [[lastVal y]], [])).2.1 = _
    rw [(runLoop_forecast_contribs mask.reverse blocks y.reverse [[lastVal y]] []).1]
  have hrect : ∀ m ∈ blockForecasts mask.reverse blocks y.reverse, isRect h q m :=
    blockForecasts_rect mask.reverse blocks y.reverse hfc
  cases hx : blockForecasts mask.reverse blocks y.reverse with
  | nil =>
      exfalso
      cases blocks with
      | nil => exact hblocks rfl
      | cons b bs => simp [blockForecasts] at hx
  | cons m rest =>
      have hmrect : isRect h q m := hrect m (by rw [hx]; simp)
      obtain ⟨hA, hAE⟩ := broadcastAdd_singleton_rect hh hq (lastVal y) m hmrect
      obtain ⟨hR, hE⟩ := foldl_broadcastAdd_rect hh hq rest (broadcastAdd [[lastVal y]] m) hA
        (fun x hxm => hrect x (by rw [hx]; simp [hxm]))
      rw [hx] at h1
      refine ⟨h1, ?_, ?_⟩
      · simpa using hR
      · intro t j ht hj
        simp only [List.foldl_cons, List.map_cons, List.sum_cons]
        rw [hE t j ht hj, hAE t j ht hj]
        ring

/-- Length of a residual update. -/
theorem residUpdate_length (mask r bc : List ℚ) :
    (residUpdate mask r bc).length = min (min r.length bc.length) mask.length := by
  simp [residUpdate]

/-- After at least one iteration of the block loop, the residual is zero
at every position where the mask is zero — and stays zero, since every
further update multiplies by the mask again. -/
theorem runLoop_residual_zero (mask : List ℚ) (L i : ℕ)
    (hmL : mask.length = L) (hiL : i < L) (h0 : mask.getD i 1 = 0) :
    ∀ (bs : List Blk), bs ≠ [] →
      (∀ blk ∈ bs, ∀ x, ((blk x).1).length = L) →
      ∀ (r : List ℚ) (f : Mat) (cs : List Mat), r.length = L →
        ((runLoop mask bs (r, f, cs)).1).getD i 1 = 0 := by
  intro bs
  induction bs with
  | nil => intro hne; exact absurd rfl hne
  | cons blk rest ih =>
      intro _ hbs r f cs hr
      have hbc : ((blk r).1).length = L := hbs blk (by simp) r
      have hru : (residUpdate mask r (blk r).1).length = L := by
        rw [residUpdate_length, hr, hbc, hmL]
        omega
      cases rest with
      | nil =>
          simp only [runLoop]
          unfold residUpdate
          rw [zipWith_getD _ _ _ _ i
            (by rw [List.length_zipWith, hr, hbc]; omega)
            (by rw [hmL]; omega)]
          rw [h0, mul_zero]
      | cons b2 brest =>
          show ((runLoop mask (b2 :: brest)
            (residUpdate mask r (blk r).1, broadcastAdd f (blk r).2,
              cs ++ [(blk r).2])).1).getD i 1 = 0
          exact ih (by simp) (fun x hxm y => hbs x (by simp [hxm]) y) _ _ _ hru

/-- C2: for every block iteration `k ≥ 1` of the forecast assembler, after
the update `residual := (residual − backcast) × mask`, the residual is
exactly zero at every position where the time-reversed mask is 0 — and
since this holds for every `k ≥ 1`, those positions remain zero for all
subsequent iterations. -/
theorem c2_residual_zero_on_masked (blocks : List Blk) (y mask : List ℚ) (k i : ℕ)
    (hbc : ∀ blk ∈ blocks, ∀ r, ((blk r).1).length = y.length)
    (hm : mask.length = y.length)
    (hk1 : 1 ≤ k) (hk2 : k ≤ blocks.length)
    (hi : i < y.length)
    (h0 : mask.reverse.getD i 1 = 0) :
    ((runLoop mask.reverse (blocks.take k) (y.reverse, [[lastVal y]], [])).1).getD i 1 = 0 := by
  refine runLoop_residual_zero mask.reverse y.length i (by simp [hm]) hi h0
    (blocks.take k) ?_ ?_ y.reverse [[lastVal y]] [] (by simp)
  · intro hnil
    rcases List.take_eq_nil_iff.mp hnil with h' | h'
    · omega
    · rw [h'] at hk2
      simp at hk2
      omega
  · intro blk hblk r
    exact hbc blk (List.take_subset k blocks hblk) r

/-- C10: with an empty block list, the non-decomposition path returns the
domain map of the 1 × 1 seed holding only the last observed lookback
value: the horizon dimension of the accumulated forecast has length 1
(not `H`) because the seed is never explicitly repeated on this path and
broadcasting never happens without a block forecast. -/
theorem c10_empty_blocks_horizon_one (dm : Mat → Mat) (y mask : List ℚ) (hy : y ≠ []) :
    nhitsForwardPoint dm [] y mask = dm [[lastVal y]] ∧ ([[lastVal y]] : Mat).length = 1 :=
  ⟨rfl, rfl⟩

/-- `get?` does not see past a `take` bound. -/
theorem get?_take_of_lt {α : Type} : ∀ (l : List α) (n i : ℕ), i < n →
    (l.take n).get? i = l.get? i := by
  intro l
  induction l with
  | nil => intro n i _; simp
  | cons x xs ih =>
      intro n i h
      cases n with
      | zero => omega
      | succ m =>
          cases i with
          | zero => simp
          | succ j =>
              simp only [List.take_succ_cons, List.get?_cons_succ]
              exact ih m j (by omega)

/-- Python indexing agrees on a truncated list below the bound. -/
theorem elemAt_take {α : Type} (l : List α) (n i : ℕ) (h : i < n) :
    elemAt (l.take n) i = elemAt l i := by
  unfold elemAt
  rw [get?_take_of_lt l n i h]

/-- A successful Python index read is the `get?` value. -/
theorem elemAt_ok {α : Type} (l : List α) (i : ℕ) (x : α)
    (hok : elemAt l i = Except.ok x) : l.get? i = some x := by
  unfold elemAt at hok
  cases hg : l.get? i with
  | none => rw [hg] at hok; simp at hok
  | some y =>
      rw [hg] at hok
      simp only [Except.ok.injEq] at hok
      rw [hok]

/-- A `get?` hit determines `getD` regardless of the default. -/
theorem get?_some_getD {α : Type} : ∀ (l : List α) (i : ℕ) (x d : α),
    l.get? i = some x → l.getD i d = x := by
  intro l
  induction l with
  | nil => intro i x d h; simp at h
  | cons a t ih =>
      intro i x d h
      cases i with
      | zero =>
          simp only [List.get?_cons_zero, Option.some.injEq] at h
          simpa using h
      | succ n =>
          simp only [List.get?_cons_succ] at h
          simpa using ih n x d h

/-- `NHITSBlock` construction neither alters the projector width nor the
basis it is handed. -/
theorem mkNHITSBlock_ok (cfg : NHITSConfig) (nTheta : ℕ) (basis : BasisCfg)
    (kernel : ℕ) (blk : BlockCfg)
    (hok : mkNHITSBlock cfg nTheta basis kernel = Except.ok blk) :
    blk.nTheta = nTheta ∧ blk.basis = basis := by
  unfold mkNHITSBlock at hok
  split at hok
  · simp at hok
  · split at hok
    · split at hok
      · split at hok
        · simp at hok
        · split at hok
          · simp at hok
          · simp only [Except.ok.injEq] at hok
            subst hok
            exact ⟨rfl, rfl⟩
      · simp at hok
    · simp at hok

/-- `_IdentityBasis` construction records the handed backcast size and
output-feature count. -/
theorem mkIdentityBasis_ok (bs fs : ℕ) (mode : String) (q : ℕ) (basis : BasisCfg)
    (hok : mkIdentityBasis bs fs mode q = Except.ok basis) :
    basis.backcastSize = bs ∧ basis.outFeatures = q := by
  unfold mkIdentityBasis at hok
  split at hok
  · simp only [Except.ok.injEq] at hok
    subst hok
    exact ⟨rfl, rfl⟩
  · simp at hok

/-- A stack body that builds at least one block only succeeds on the
identity stack type. -/
theorem stackBlocks_ok_identity (cfg : NHITSConfig) (i nb : ℕ) (bl : List BlockCfg)
    (hok : stackBlocks cfg i nb = Except.ok bl) (hnb : 0 < nb) :
    cfg.stackTypes.getD i "" = "identity" := by
  unfold stackBlocks at hok
  split at hok
  · omega
  · split at hok
    · assumption
    · simp at hok

/-- Every block a stack body builds satisfies the `n_theta` formula with
the stack's frequency-downsample ratio. -/
theorem stackBlocks_ok_mem (cfg : NHITSConfig) (i nb : ℕ) (bl : List BlockCfg)
    (hok : stackBlocks cfg i nb = Except.ok bl) :
    ∀ b ∈ bl, ∃ d, cfg.nFreqDownsample.get? i = some d ∧
      b.nTheta = b.basis.backcastSize + b.basis.outFeatures * max (cfg.h / d) 1 := by
  unfold stackBlocks at hok
  split at hok
  · simp only [Except.ok.injEq] at hok
    subst hok
    intro b hb
    simp at hb
  · split at hok
    · cases hd : elemAt cfg.nFreqDownsample i with
      | error e => rw [hd] at hok; simp [exbind] at hok
      | ok d =>
          rw [hd] at hok
          simp only [exbind] at hok
          split at hok
          · simp at hok
          · cases hb2 : mkIdentityBasis cfg.inputSize cfg.h cfg.interpolationMode
                cfg.outputsizeMultiplier with
            | error e => rw [hb2] at hok; simp [exbind] at hok
            | ok basis =>
                rw [hb2] at hok
                simp only [exbind] at hok
                cases hk : elemAt cfg.nPoolKernelSize i with
                | error e => rw [hk] at hok; simp [exbind] at hok
                | ok kernel =>
                    rw [hk] at hok
                    simp only [exbind] at hok
                    cases hblk : mkNHITSBlock cfg
                        (cfg.inputSize + cfg.outputsizeMultiplier * max (cfg.h / d) 1)
                        basis kernel with
                    | error e => rw [hblk] at hok; simp [exbind] at hok
                    | ok blk =>
                        rw [hblk] at hok
                        simp only [exbind, Except.ok.injEq] at hok
                        subst hok
                        intro b hb
                        have hbeq : b = blk := List.eq_of_mem_replicate hb
                        subst hbeq
                        obtain ⟨hnt, hbas⟩ := mkNHITSBlock_ok cfg _ basis kernel b hblk
                        obtain ⟨hbs, hq⟩ := mkIdentityBasis_ok cfg.inputSize cfg.h
                          cfg.interpolationMode cfg.outputsizeMultiplier basis hb2
                        refine ⟨d, elemAt_ok _ _ _ hd, ?_⟩
                        rw [hnt, hbas, hbs, hq]
    · simp at hok

/-- An `Except.ok` run of the stack-builder loop forces the identity stack
type wherever the block count read for that stack is positive. -/
theorem createStackGo_ok_identity (cfg : NHITSConfig) :
    ∀ (is : List ℕ) (blocks : List BlockCfg), createStackGo cfg is = Except.ok blocks →
      ∀ i ∈ is, 0 < cfg.nBlocks.getD i 0 → cfg.stackTypes.getD i "" = "identity" := by
  intro is
  induction is with
  | nil => intro blocks _ i hi; simp at hi
  | cons j rest ih =>
      intro blocks hok i hi hpos
      unfold createStackGo at hok
      cases hnb : elemAt cfg.nBlocks j with
      | error e => rw [hnb] at hok; simp [exbind] at hok
      | ok nb =>
          rw [hnb] at hok
          simp only [exbind] at hok
          cases hsb : stackBlocks cfg j nb with
          | error e => rw [hsb] at hok; simp [exbind] at hok
          | ok bl =>
              rw [hsb] at hok
              simp only [exbind] at hok
              cases hrest : createStackGo cfg rest with
              | error e => rw [hrest] at hok; simp [exbind] at hok
              | ok restB =>
                  rcases List.mem_cons.mp hi with rfl | hmem
                  · have hgd : cfg.nBlocks.getD i 0 = nb :=
                      get?_some_getD cfg.nBlocks i nb 0 (elemAt_ok _ _ _ hnb)
                    exact stackBlocks_ok_identity cfg i nb bl hsb (by omega)
                  · exact ih restB hrest i hmem hpos

/-- Every block an `Except.ok` run of the stack-builder loop produces
comes from some visited stack index and satisfies the `n_theta` formula. -/
theorem createStackGo_ok_mem (cfg : NHITSConfig) :
    ∀ (is : List ℕ) (blocks : List BlockCfg), createStackGo cfg is = Except.ok blocks →
      ∀ b ∈ blocks, ∃ i ∈ is, ∃ d, cfg.nFreqDownsample.get? i = some d ∧
        b.nTheta = b.basis.backcastSize + b.basis.outFeatures * max (cfg.h / d) 1 := by
  intro is
  induction is with
  | nil =>
      intro blocks hok b hb
      unfold createStackGo at hok
      simp only [Except.ok.injEq] at hok
      subst hok
      simp at hb
  | cons j rest ih =>
      intro blocks hok b hb
      unfold createStackGo at hok
      cases hnb : elemAt cfg.nBlocks j with
      | error e => rw [hnb] at hok; simp [exbind] at hok
      | ok nb =>
          rw [hnb] at hok
          simp only [exbind] at hok
          cases hsb : stackBlocks cfg j nb with
          | error e => rw [hsb] at hok; simp [exbind] at hok
          | ok bl =>
              rw [hsb] at hok
              simp only [exbind] at hok
              cases hrest : createStackGo cfg rest with
              | error e => rw [hrest] at hok; simp [exbind] at hok
              | ok restB =>
                  rw [hrest] at hok
                  simp only [exbind, Except.ok.injEq] at hok
                  subst hok
                  rcases List.mem_append.mp hb with hbl | hbr
                  · obtain ⟨d, hd, hf⟩ := stackBlocks_ok_mem cfg j nb bl hsb b hbl
                    exact ⟨j, by simp, d, hd, hf⟩
                  · obtain ⟨i, hi, d, hd, hf⟩ := ih restB hrest b hbr
                    exact ⟨i, by simp [hi], d, hd, hf⟩

/-- C9: for every block of every successfully constructed model,
`n_theta = backcast_size + out_features × max(⌊H / d⌋, 1)` holds exactly,
where `backcast_size` and `out_features` are the block's own basis fields
(set to the input size and the loss collaborator's
`outputsize_multiplier`) and `d` is the block's stack's
frequency-downsample ratio. -/
theorem c9_nTheta_formula (cfg : NHITSConfig) (blocks : List BlockCfg)
    (hok : createStack cfg = Except.ok blocks) :
    ∀ b ∈ blocks, ∃ i, i < cfg.stackTypes.length ∧
      ∃ d, cfg.nFreqDownsample.get? i = some d ∧
        b.nTheta = b.basis.backcastSize + b.basis.outFeatures * max (cfg.h / d) 1 := by
  intro b hb
  obtain ⟨i, hi, d, hd, hf⟩ :=
    createStackGo_ok_mem cfg (List.range cfg.stackTypes.length) blocks hok b hb
  exact ⟨i, List.mem_range.mp hi, d, hd, hf⟩

/-- C6 (amended): a stack type other than `identity` fails construction
whenever its block count is positive (so success forces identity there),
while a non-identity stack whose block count is zero is silently skipped,
as `cfgZeroSkip` shows. -/
theorem c6_amended_identity_or_skip :
    (∀ (cfg : NHITSConfig) (blocks : List BlockCfg), createStack cfg = Except.ok blocks →
      ∀ i, i < cfg.stackTypes.length → 0 < cfg.nBlocks.getD i 0 →
        cfg.stackTypes.getD i "" = "identity") ∧
    createStack cfgZeroSkip = Except.ok cfgZeroSkipBlocks ∧
    cfgZeroSkip.stackTypes.getD 0 "" = "trend" := by
  refine ⟨?_, rfl, rfl⟩
  intro cfg blocks hok i hilen hpos
  exact createStackGo_ok_identity cfg (List.range cfg.stackTypes.length) blocks hok i
    (List.mem_range.mpr hilen) hpos

/-- `NHITSBlock` construction ignores the truncated per-stack lists. -/
theorem mkNHITSBlock_truncate (cfg : NHITSConfig) (nTheta : ℕ) (basis : BasisCfg)
    (kernel : ℕ) :
    mkNHITSBlock (truncateCfg cfg) nTheta basis kernel
      = mkNHITSBlock cfg nTheta basis kernel := rfl

/-- A stack body reads the per-stack lists only at its own index, so
truncation at `len(stack_types)` is invisible below that bound. -/
theorem stackBlocks_truncate (cfg : NHITSConfig) (i : ℕ)
    (hi : i < cfg.stackTypes.length) (nb : ℕ) :
    stackBlocks (truncateCfg cfg) i nb = stackBlocks cfg i nb := by
  unfold stackBlocks
  simp only [mkNHITSBlock_truncate]
  simp only [truncateCfg]
  rw [elemAt_take _ _ _ hi, elemAt_take _ _ _ hi]

/-- The stack-builder loop over in-range indices is invariant under
truncating the per-stack lists at `len(stack_types)`. -/
theorem createStackGo_truncate (cfg : NHITSConfig) :
    ∀ (is : List ℕ), (∀ i ∈ is, i < cfg.stackTypes.length) →
      createStackGo (truncateCfg cfg) is = createStackGo cfg is := by
  intro is
  induction is with
  | nil => intro _; rfl
  | cons j rest ih =>
      intro hmem
      have hj : j < cfg.stackTypes.length := hmem j (by simp)
      unfold createStackGo
      have hb : elemAt (truncateCfg cfg).nBlocks j = elemAt cfg.nBlocks j := by
        show elemAt (cfg.nBlocks.take cfg.stackTypes.length) j = _
        exact elemAt_take _ _ _ hj
      rw [hb]
      simp only [stackBlocks_truncate cfg j hj, ih (fun x hx => hmem x (by simp [hx]))]

/-- C5 (amended): `create_stack` performs no length validation on the
per-stack configuration lists — it reads only the first
`len(stack_types)` entries of each, so longer lists silently succeed with
the extras ignored (truncation invariance), while a list shorter than
`stack_types` fails with a bare index-out-of-range error that names no
list (`cfgShort`). -/
theorem c5_amended_no_length_validation :
    (∀ cfg : NHITSConfig, createStack (truncateCfg cfg) = createStack cfg) ∧
    createStack cfgShort = Except.error ConsError.indexOutOfRange := by
  constructor
  · intro cfg
    unfold createStack
    have hlen : (truncateCfg cfg).stackTypes.length = cfg.stackTypes.length := rfl
    rw [hlen]
    exact createStackGo_truncate cfg (List.range cfg.stackTypes.length)
      (fun i hi => List.mem_range.mp hi)
  · rfl

/-! ### Witnesses -/

/-- Witness for C1 at a concrete one-block model. -/
theorem c1_witness :
    nhitsForwardPoint id [c1Blk] [1, 2, 3, 4] [1, 1, 1, 1]
      = id ((blockForecasts ([1, 1, 1, 1] : List ℚ).reverse [c1Blk]
            ([1, 2, 3, 4] : List ℚ).reverse).foldl broadcastAdd
          [[lastVal ([1, 2, 3, 4] : List ℚ)]]) ∧
    isRect 2 1 ((blockForecasts ([1, 1, 1, 1] : List ℚ).reverse [c1Blk]
            ([1, 2, 3, 4] : List ℚ).reverse).foldl broadcastAdd
          [[lastVal ([1, 2, 3, 4] : List ℚ)]]) ∧
    entry ((blockForecasts ([1, 1, 1, 1] : List ℚ).reverse [c1Blk]
            ([1, 2, 3, 4] : List ℚ).reverse).foldl broadcastAdd
          [[lastVal ([1, 2, 3, 4] : List ℚ)]]) 1 0
        = lastVal ([1, 2, 3, 4] : List ℚ)
          + ((blockForecasts ([1, 1, 1, 1] : List ℚ).reverse [c1Blk]
              ([1, 2, 3, 4] : List ℚ).reverse).map (fun m => entry m 1 0)).sum := by
  have h := c1_forecast_equals_baseline_plus_sum id 2 1 [c1Blk] [1, 2, 3, 4] [1, 1, 1, 1]
    (by decide) (by decide) (by decide) (List.cons_ne_nil _ _)
    (by
      intro blk hblk r
      rw [List.mem_singleton] at hblk
      subst hblk
      exact (by decide : isRect 2 1 [[(1 : ℚ)], [2]]))
  exact ⟨h.1, h.2.1, h.2.2 1 0 (by decide) (by decide)⟩

/-- Witness for C2 at a concrete one-block model with a half-zero mask. -/
theorem c2_witness :
    ((runLoop ([1, 0, 1, 0] : List ℚ).reverse ([c2Blk].take 1)
        (([1, 2, 3, 4] : List ℚ).reverse, [[lastVal ([1, 2, 3, 4] : List ℚ)]], [])).1).getD 0 1
      = 0 :=
  c2_residual_zero_on_masked [c2Blk] [1, 2, 3, 4] [1, 0, 1, 0] 1 0
    (by
      intro blk hblk r
      rw [List.mem_singleton] at hblk
      subst hblk
      rfl)
    (by decide) (by decide) (by decide) (by decide) (by decide)

/-- Witness for C4 at a concrete two-sample knots batch. -/
theorem c4_witness :
    cubicChunked 2 c4Interp c4Knots = c4Interp c4Knots :=
  c4_cubic_chunking_equiv 2 c4Interp c4Knots (by decide) (by decide) (by decide)

/-- Witness for C5's amended theorem at the mismatched configuration. -/
theorem c5_amended_witness :
    createStack (truncateCfg cfgMis) = createStack cfgMis :=
  c5_amended_no_length_validation.1 cfgMis

/-- Witness for C6's amended theorem at the valid base configuration. -/
theorem c6_amended_witness :
    cfgBase.stackTypes.getD 0 "" = "identity" :=
  c6_amended_identity_or_skip.1 cfgBase cfgBaseBlocks (by rfl) 0 (by decide) (by decide)

/-- Witness for C7 at the spec's Scenario A theta vector. -/
theorem c7_witness :
    idBasisForward 4 2 .linear 1 [10, 11, 12, 13, 20, 21]
      = ([10, 11, 12, 13], [[20], [21]]) := by
  rw [c7_basis_identity_when_knots_eq_h 4 2 .linear [10, 11, 12, 13, 20, 21]
    (by decide) (by decide)]
  rfl

/-- Witness for C8 at the spec's Scenario B (single knot). -/
theorem c8_witness :
    idBasisForward 4 2 .linear 1 [10, 11, 12, 13, 7] = ([10, 11, 12, 13], [[7], [7]]) := by
  rw [c8_single_knot_constant 4 2 [10, 11, 12, 13, 7] (by decide) (by decide)]
  rfl

/-- Witness for C9 on the block built from the base configuration. -/
theorem c9_witness :
    ∃ i, i < cfgBase.stackTypes.length ∧
      ∃ d, cfgBase.nFreqDownsample.get? i = some d ∧
        (cfgBaseBlocks.headD blkJunk).nTheta
          = (cfgBaseBlocks.headD blkJunk).basis.backcastSize
            + (cfgBaseBlocks.headD blkJunk).basis.outFeatures * max (cfgBase.h / d) 1 :=
  c9_nTheta_formula cfgBase cfgBaseBlocks (by rfl) (cfgBaseBlocks.headD blkJunk) (by decide)

/-- Witness for C10 at a concrete lookback window. -/
theorem c10_witness :
    nhitsForwardPoint id [] ([1, 2, 3, 4] : List ℚ) [1, 1, 1, 1]
        = id [[lastVal ([1, 2, 3, 4] : List ℚ)]] ∧
      ([[lastVal ([1, 2, 3, 4] : List ℚ)]] : Mat).length = 1 :=
  c10_empty_blocks_horizon_one id [1, 2, 3, 4] [1, 1, 1, 1] (by decide)

end NHITSSpec
